import Mathlib

/-!
# Pipelined polynomial evaluation (`polynomial_pipeline.cpp`)

A shallow embedding of `Polynomial::evaluate`, `Polynomial::compute_term`,
`parse_arguments` and the per-rank accumulation code of `main`.

* `float` is an arbitrary carrier `α` with `0`, `1`, `+`, `*`; the results about
  exact arithmetic take `α` to be a semiring (a linearly ordered ring where
  `std::abs` is needed), which covers the rationals and the reals.
* `int` is `Int`; `/` on `int` is `Int.tdiv` (truncation towards zero).
  `range_values_bounded` bounds every intermediate value of the range
  computation by `degree + size - 1`.
* `coefficients[i]` is `coefficients[i]?`: an access outside the vector makes
  the enclosing function return `none`.
* The chain of blocking sends and receives is the sequential recursion
  `accumulated_sum`: rank `k + 1` runs on the value forwarded by rank `k`.
-/

namespace PolynomialPipeline

set_option linter.unusedSectionVars false

section Embedding

variable {α : Type} [Zero α] [One α] [Add α] [Mul α]

/-- The successive values of `i` in `for (int i = start; i < stop; ++i)`. -/
def loop_indices (start stop : Int) : List Int :=
  (List.range (stop - start).toNat).map (fun (k : Nat) => start + (k : Int))

/-- Method `Polynomial::degree()`: `static_cast<int>(coefficients.size()) - 1`. -/
def degree (coefficients : List α) : Int :=
  (coefficients.length : Int) - 1

/-- Body of the loop of `Polynomial::evaluate`, on the pair `(result, power)`:
`result += coefficients[i] * power; power *= x;`. -/
def evaluate_step (coefficients : List α) (x : α) (st : α × α) (i : Nat) : Option (α × α) :=
  (coefficients[i]?).map (fun a => (st.1 + a * st.2, st.2 * x))

/-- Method `Polynomial::evaluate(x)`: `result = 0`, `power = 1`, then the loop over
`i = 0 .. coefficients.size() - 1`; returns `result`. -/
def evaluate (coefficients : List α) (x : α) : Option α :=
  ((List.range coefficients.length).foldlM (evaluate_step coefficients x) (0, 1)).map Prod.fst

/-- The guard of `Polynomial::compute_term`:
`term_index < 0 || static_cast<size_t>(term_index) >= coefficients.size()`. -/
def out_of_range (coefficients : List α) (term_index : Int) : Prop :=
  term_index < 0 ∨ term_index.toNat ≥ coefficients.length

instance (coefficients : List α) (term_index : Int) :
    Decidable (out_of_range coefficients term_index) := by
  unfold out_of_range; infer_instance

/-- The power loop of `Polynomial::compute_term`:
`power = 1; for (int i = 0; i < term_index; ++i) power *= x;`. -/
def term_power (x : α) (term_index : Int) : α :=
  (loop_indices 0 term_index).foldl (fun power _ => power * x) 1

/-- Method `Polynomial::compute_term(term_index, x)`: `0` when the guard
holds, otherwise `coefficients[term_index] * power`. -/
def compute_term (coefficients : List α) (term_index : Int) (x : α) : Option α :=
  if out_of_range coefficients term_index then some 0
  else (coefficients[term_index.toNat]?).map (fun a => a * term_power x term_index)

/-- In `main`: `terms_per_process = (degree + size - 1) / size`, where the
variable `degree` of `main` holds `coeffs.size()`, the number of coefficients. -/
def terms_per_process (degree size : Int) : Int :=
  Int.tdiv (degree + size - 1) size

/-- In `main`: `start_term = rank * terms_per_process`. -/
def start_term (degree size rank : Int) : Int :=
  rank * terms_per_process degree size

/-- In `main`: `end_term = std::min(start_term + terms_per_process, degree)`. -/
def end_term (degree size rank : Int) : Int :=
  min (start_term degree size rank + terms_per_process degree size) degree

/-- The indices the loop `for (int i = start_term; i < end_term; ++i)` of a
rank passes to `compute_term`; `coeffs.size()` is broadcast as `degree`. -/
def term_indices (coeffs : List α) (size rank : Int) : List Int :=
  loop_indices (start_term coeffs.length size rank) (end_term coeffs.length size rank)

/-- The loop of a rank in `main`: `partial_sum = 0`, then for each index
`term_value = poly->compute_term(i, x); partial_sum += term_value;`. -/
def partial_sum (coeffs : List α) (x : α) (size rank : Int) : Option α :=
  (term_indices coeffs size rank).foldlM
    (fun partial_sum i => (compute_term coeffs i x).map (fun term_value => partial_sum + term_value))
    0

/-- The accumulation step of one rank in `main`. `received` is the value
`MPI_Recv` stores in `accumulated_sum` (ranks above 0 only). Rank 0 sets
`accumulated_sum = partial_sum`; a rank with `0 < rank < size` does
`accumulated_sum += partial_sum`; otherwise `accumulated_sum` keeps its
initial value `0`. -/
def accumulate (coeffs : List α) (x : α) (size rank : Int) (received : α) : Option α :=
  if rank = 0 then partial_sum coeffs x size rank
  else if 0 < rank ∧ rank < size then
    (partial_sum coeffs x size rank).map (fun partial_sum => received + partial_sum)
  else some 0

/-- Sequential model of the chain: the value of `accumulated_sum` at rank `k`
after its accumulation step. Rank `k` forwards it to rank `k + 1` only when
`k < size - 1` (for rank 0: `size > 1`); without that message rank `k + 1`
never gets past its `MPI_Recv`. -/
def accumulated_sum (coeffs : List α) (x : α) (size : Int) : Nat → Option α
  | 0 => accumulate coeffs x size 0 0
  | k + 1 =>
    (accumulated_sum coeffs x size k).bind (fun forwarded =>
      if (k : Int) < size - 1 then accumulate coeffs x size ((k : Int) + 1) forwarded
      else none)

/-- The value printed as `FINAL RESULT` by the rank with `rank == size - 1`. -/
def final_result (coeffs : List α) (x : α) (size : Int) : Option α :=
  accumulated_sum coeffs x size (size - 1).toNat

/-- The `direct_result` of the last rank: `poly->evaluate(x)` in-process when
it is rank 0, otherwise the value rank 0 computes with `poly->evaluate(x)` on
its own copy of the coefficients and sends back. -/
def direct_result (coeffs : List α) (x : α) (size : Int) : Option α :=
  if size - 1 = 0 then evaluate coeffs x else evaluate coeffs x

/-- The result of `parse_arguments`: the returned `bool` and the contents of
the reference parameters `x` and `coefficients` at return. -/
structure ParseResult (α : Type) where
  ok : Bool
  x : α
  coefficients : List α

/-- One pass of the loop of `parse_arguments`:
`coefficients.push_back(std::stof(argv[i]))`. `stof s = none` stands for
`std::stof` throwing on `s`; the exception leaves the loop with the vector as
it is (`Except.error`). -/
def push_back_stof (stof : String → Option α) (argv : List String)
    (coefficients : List α) (i : Int) : Except (List α) (List α) :=
  match (argv[i.toNat]?).bind stof with
  | none => Except.error coefficients
  | some v => Except.ok (coefficients ++ [v])

/-- Function `parse_arguments(argc, argv, x, coefficients)` with
`argc = argv.length`. A throwing `std::stof` is caught and gives `false`. -/
def parse_arguments (stof : String → Option α) (argv : List String) (x : α)
    (coefficients : List α) : ParseResult α :=
  if (argv.length : Int) < 3 then ⟨false, x, coefficients⟩
  else
    match (argv[1]?).bind stof with
    | none => ⟨false, x, coefficients⟩
    | some x1 =>
      match (loop_indices 2 argv.length).foldlM (push_back_stof stof argv) coefficients with
      | Except.error cs => ⟨false, x1, cs⟩
      | Except.ok cs => if cs.isEmpty then ⟨false, x1, cs⟩ else ⟨true, x1, cs⟩

/-- What rank 0 does between `MPI_Init` and the first `MPI_Bcast`. -/
inductive Rank0Outcome (α : Type) where
  /-- Rank 0 runs `print_usage(argv[0]); MPI_Abort(MPI_COMM_WORLD, status);
  return status;`. -/
  | abort (status : Int)
  /-- Rank 0 reaches `MPI_Bcast` holding `x` and `coeffs`. -/
  | broadcast (x : α) (coeffs : List α)

/-- Lines 132-147 of `main` on rank 0: `coeffs` starts empty, `x` starts with
an unspecified value `x0`. -/
def main_rank0 (stof : String → Option α) (argv : List String) (x0 : α) : Rank0Outcome α :=
  let r := parse_arguments stof argv x0 []
  if !r.ok then Rank0Outcome.abort 1
  else Rank0Outcome.broadcast r.x r.coefficients

end Embedding

section Report

variable {α : Type} [LinearOrderedRing α]

/-- The value printed as `Difference` by the last rank:
`std::abs(accumulated_sum - direct_result)`. -/
def difference (coeffs : List α) (x : α) (size : Int) : Option α :=
  (final_result coeffs x size).bind (fun accumulated =>
    (direct_result coeffs x size).map (fun direct => |accumulated - direct|))

end Report


/-! ## Auxiliary definitions used to state and prove the results -/

section Auxiliary

variable {α : Type} [Zero α] [One α] [Add α] [Mul α]

/-- The product `((1 * x) * x) ... * x` with `n` factors `x`. -/
def iter_power (x : α) : Nat → α
  | 0 => 1
  | n + 1 => iter_power x n * x

/-- The value `coefficients[i] * (((1 * x) * x) ... * x)` of term `i`. -/
def term_value (coeffs : List α) (x : α) (i : Nat) : α :=
  coeffs.getD i 0 * iter_power x i

/-- The left-nested sum `((init + v s) + v (s+1)) + ... + v (s+n-1)` of the
term values `v`. -/
def running_sum (coeffs : List α) (x : α) (init : α) (s : Nat) : Nat → α
  | 0 => init
  | n + 1 => running_sum coeffs x init s n + term_value coeffs x (s + n)

/-- The ceiling division of `main` on natural numbers. -/
def chunk (c N : Nat) : Nat := (c + N - 1) / N

/-- The number of indices in the range of rank `r`. -/
def range_len (c N r : Nat) : Nat :=
  min (r * chunk c N + chunk c N) c - r * chunk c N

/-- The indices owned by the ranks `0..k`: the union of their loop ranges
`[start_term, end_term)`. -/
def owned_upto (degree size : Int) (k : Nat) : Finset Int :=
  (Finset.range (k + 1)).biUnion (fun r =>
    (loop_indices (start_term degree size (r : Int)) (end_term degree size (r : Int))).toFinset)

/-- The loop of `parse_arguments` as a recursion over the arguments that are
still to be parsed. -/
def parse_list {β : Type} (stof : String → Option β) : List String → List β → Except (List β) (List β)
  | [], cs => Except.ok cs
  | s :: rest, cs =>
    match stof s with
    | none => Except.error cs
    | some v => parse_list stof rest (cs ++ [v])

/-- A carrier whose `+` and `*` are neither associative nor commutative, to
run the code under a non-standard interpretation of the operations. -/
structure Skew where
  val : Int
  deriving DecidableEq

instance : Zero Skew := ⟨⟨0⟩⟩

instance : One Skew := ⟨⟨1⟩⟩

instance : Add Skew := ⟨fun a b => ⟨a.val - 2 * b.val⟩⟩

instance : Mul Skew := ⟨fun a b => ⟨3 * a.val + b.val⟩⟩

end Auxiliary

/-! ## The loops -/

section Generic

variable {α : Type} [Zero α] [One α] [Add α] [Mul α]

theorem mem_loop_indices (start stop i : Int) :
    i ∈ loop_indices start stop ↔ start ≤ i ∧ i < stop := by
  unfold loop_indices
  simp only [List.mem_map, List.mem_range]
  constructor
  · rintro ⟨k, hk, rfl⟩
    omega
  · rintro ⟨h1, h2⟩
    exact ⟨(i - start).toNat, by omega, by omega⟩

theorem loop_indices_of_le (start stop : Int) (h : stop ≤ start) :
    loop_indices start stop = [] := by
  unfold loop_indices
  have : (stop - start).toNat = 0 := by omega
  simp [this]

theorem loop_indices_cast (s e : Nat) :
    loop_indices (s : Int) (e : Int)
      = (List.range (e - s)).map (fun (k : Nat) => ((s + k : Nat) : Int)) := by
  unfold loop_indices
  have : ((e : Int) - s).toNat = e - s := by omega
  rw [this]
  apply List.map_congr_left
  intro k _
  push_cast
  rfl

theorem term_power_cast (x : α) (n : Nat) : term_power x (n : Int) = iter_power x n := by
  unfold term_power loop_indices
  simp only [sub_zero, Int.toNat_ofNat, List.foldl_map]
  induction n with
  | zero => rfl
  | succ n ih => rw [List.range_succ, List.foldl_append, ih]; rfl

theorem compute_term_cast (coeffs : List α) (x : α) (i : Nat) (h : i < coeffs.length) :
    compute_term coeffs (i : Int) x = some (term_value coeffs x i) := by
  unfold compute_term out_of_range term_value
  have hn : ¬ ((i : Int) < 0 ∨ (i : Int).toNat ≥ coeffs.length) := by
    simp only [Int.toNat_ofNat]; omega
  rw [if_neg hn, term_power_cast]
  simp [List.getD_eq_getElem?_getD, List.getElem?_eq_getElem h]

theorem evaluate_loop (coeffs : List α) (x : α) (n : Nat) (h : n ≤ coeffs.length) :
    (List.range n).foldlM (evaluate_step coeffs x) (0, 1)
      = some (running_sum coeffs x 0 0 n, iter_power x n) := by
  induction n with
  | zero => rfl
  | succ n ih =>
    have hn : n < coeffs.length := by omega
    rw [List.range_succ, List.foldlM_append, ih (by omega)]
    simp [evaluate_step, running_sum, iter_power, term_value, List.getElem?_eq_getElem hn,
      List.getD_eq_getElem?_getD]

theorem evaluate_eq_running_sum (coeffs : List α) (x : α) :
    evaluate coeffs x = some (running_sum coeffs x 0 0 coeffs.length) := by
  unfold evaluate
  rw [evaluate_loop coeffs x _ le_rfl]
  rfl

theorem partial_loop (coeffs : List α) (x : α) (init : α) (s n : Nat)
    (h : n ≠ 0 → s + n ≤ coeffs.length) :
    ((List.range n).map (fun (k : Nat) => ((s + k : Nat) : Int))).foldlM
        (fun acc i => (compute_term coeffs i x).map (fun term_value => acc + term_value)) init
      = some (running_sum coeffs x init s n) := by
  induction n with
  | zero => rfl
  | succ n ih =>
    have h1 : s + (n + 1) ≤ coeffs.length := h (by omega)
    rw [List.range_succ, List.map_append, List.foldlM_append, ih (by omega)]
    have hc := compute_term_cast coeffs x (s + n) (by omega)
    simp only [List.map_cons, List.map_nil, List.foldlM_cons, List.foldlM_nil, hc]
    rfl

end Generic

/-! ## The term ranges -/

section Ranges

theorem terms_per_process_cast (c N : Nat) (hN : 1 ≤ N) :
    terms_per_process (c : Int) (N : Int) = (chunk c N : Int) := by
  unfold terms_per_process chunk
  have h : ((c : Int) + N - 1) = ((c + N - 1 : Nat) : Int) := by omega
  rw [h, Int.tdiv_eq_ediv (Int.ofNat_nonneg _) (Int.ofNat_nonneg _)]
  norm_cast

theorem le_mul_chunk (c N : Nat) (hN : 1 ≤ N) : c ≤ N * chunk c N := by
  unfold chunk
  have h1 := Nat.div_add_mod (c + N - 1) N
  have h2 := Nat.mod_lt (c + N - 1) (show N > 0 by omega)
  generalize N * ((c + N - 1) / N) = q at *
  omega

theorem chunk_pos (c N : Nat) (hc : 1 ≤ c) (hN : 1 ≤ N) : 1 ≤ chunk c N := by
  unfold chunk
  exact Nat.div_pos (by omega) (by omega)

theorem chunk_eq_one (c N : Nat) (hc : 1 ≤ c) (hN : c ≤ N) : chunk c N = 1 := by
  unfold chunk
  apply Nat.div_eq_of_lt_le <;> omega

theorem start_term_cast (c N r : Nat) (hN : 1 ≤ N) :
    start_term (c : Int) (N : Int) (r : Int) = ((r * chunk c N : Nat) : Int) := by
  unfold start_term
  rw [terms_per_process_cast c N hN]
  push_cast
  rfl

theorem end_term_cast (c N r : Nat) (hN : 1 ≤ N) :
    end_term (c : Int) (N : Int) (r : Int) = ((min (r * chunk c N + chunk c N) c : Nat) : Int) := by
  unfold end_term
  rw [start_term_cast c N r hN, terms_per_process_cast c N hN]
  push_cast
  rfl

end Ranges

/-! ## What each rank and the chain compute -/

section Chain

variable {α : Type} [Zero α] [One α] [Add α] [Mul α]

theorem term_indices_cast (coeffs : List α) (N r : Nat) (hN : 1 ≤ N) :
    term_indices coeffs (N : Int) (r : Int)
      = (List.range (range_len coeffs.length N r)).map
          (fun (k : Nat) => ((r * chunk coeffs.length N + k : Nat) : Int)) := by
  unfold term_indices range_len
  rw [start_term_cast _ N r hN, end_term_cast _ N r hN, loop_indices_cast]

theorem partial_sum_cast (coeffs : List α) (x : α) (N r : Nat) (hN : 1 ≤ N) :
    partial_sum coeffs x (N : Int) (r : Int)
      = some (running_sum coeffs x 0 (r * chunk coeffs.length N)
          (range_len coeffs.length N r)) := by
  unfold partial_sum
  rw [term_indices_cast coeffs N r hN]
  apply partial_loop
  unfold range_len
  omega

theorem accumulated_sum_succ (coeffs : List α) (x : α) (N k : Nat) (hN : 1 ≤ N)
    (hk : k + 1 < N) (v : α) (hv : accumulated_sum coeffs x (N : Int) k = some v) :
    accumulated_sum coeffs x (N : Int) (k + 1)
      = some (v + running_sum coeffs x 0 ((k + 1) * chunk coeffs.length N)
          (range_len coeffs.length N (k + 1))) := by
  have h1 : ((k : Int) < (N : Int) - 1) := by omega
  have h2 : ¬ ((k : Int) + 1 = 0) := by omega
  have h3 : 0 < (k : Int) + 1 ∧ (k : Int) + 1 < (N : Int) := by omega
  have hp := partial_sum_cast coeffs x N (k + 1) hN
  push_cast at hp
  simp only [accumulated_sum, hv, Option.some_bind, if_pos h1, accumulate, if_neg h2, if_pos h3,
    hp, Option.map_some']

end Chain

section Exact

variable {α : Type} [Semiring α]

theorem iter_power_eq_pow (x : α) (n : Nat) : iter_power x n = x ^ n := by
  induction n with
  | zero => simp [iter_power]
  | succ n ih => rw [iter_power, ih, pow_succ]

theorem running_sum_eq (coeffs : List α) (x : α) (init : α) (s n : Nat) :
    running_sum coeffs x init s n
      = init + ∑ k in Finset.range n, term_value coeffs x (s + k) := by
  induction n with
  | zero => simp [running_sum]
  | succ n ih => rw [running_sum, ih, Finset.sum_range_succ, add_assoc]

theorem evaluate_eq_sum (coeffs : List α) (x : α) :
    evaluate coeffs x = some (∑ i in Finset.range coeffs.length, term_value coeffs x i) := by
  rw [evaluate_eq_running_sum, running_sum_eq]
  simp

theorem accumulated_sum_eq (coeffs : List α) (x : α) (N : Nat) (hN : 1 ≤ N) :
    ∀ k : Nat, k < N →
      accumulated_sum coeffs x (N : Int) k
        = some (∑ i in Finset.range (min ((k + 1) * chunk coeffs.length N) coeffs.length),
            term_value coeffs x i) := by
  intro k
  induction k with
  | zero =>
    intro _
    have hp := partial_sum_cast coeffs x N 0 hN
    simp only [accumulated_sum, accumulate, if_true]
    rw [show ((0 : Int)) = ((0 : Nat) : Int) from rfl, hp, running_sum_eq]
    simp [range_len]
  | succ k ih =>
    intro hk
    rw [accumulated_sum_succ coeffs x N k hN hk _ (ih (by omega)), running_sum_eq, zero_add]
    congr 1
    by_cases hle : (k + 1) * chunk coeffs.length N ≤ coeffs.length
    · have e1 : min ((k + 1) * chunk coeffs.length N) coeffs.length
          = (k + 1) * chunk coeffs.length N := min_eq_left hle
      have e2 : min ((k + 1 + 1) * chunk coeffs.length N) coeffs.length
          = (k + 1) * chunk coeffs.length N + range_len coeffs.length N (k + 1) := by
        unfold range_len
        rw [Nat.succ_mul (k + 1)]
        omega
      rw [e1, e2, Finset.sum_range_add]
    · have e1 : min ((k + 1) * chunk coeffs.length N) coeffs.length = coeffs.length := by
        omega
      have e2 : min ((k + 1 + 1) * chunk coeffs.length N) coeffs.length = coeffs.length := by
        rw [Nat.succ_mul (k + 1)]
        omega
      have e3 : range_len coeffs.length N (k + 1) = 0 := by
        unfold range_len
        omega
      rw [e1, e2, e3]
      simp

theorem final_result_eq_sum (coeffs : List α) (x : α) (N : Nat) (hN : 1 ≤ N) :
    final_result coeffs x (N : Int)
      = some (∑ i in Finset.range coeffs.length, term_value coeffs x i) := by
  unfold final_result
  have h : ((N : Int) - 1).toNat = N - 1 := by omega
  rw [h, accumulated_sum_eq coeffs x N hN (N - 1) (by omega)]
  have h1 : N - 1 + 1 = N := by omega
  have h2 : coeffs.length ≤ N * chunk coeffs.length N := le_mul_chunk coeffs.length N hN
  rw [h1, min_eq_right h2]

end Exact

section RangeFacts

variable {α : Type} [Zero α] [One α] [Add α] [Mul α]

theorem range_bounds (c N r i : Int) (hc : 0 ≤ c) (hN : 1 ≤ N) (hr0 : 0 ≤ r)
    (hs : start_term c N r ≤ i) (he : i < end_term c N r) : 0 ≤ i ∧ i < c := by
  lift c to ℕ using hc
  lift N to ℕ using by omega
  lift r to ℕ using hr0
  have hN1 : 1 ≤ N := by exact_mod_cast hN
  rw [start_term_cast c N r hN1] at hs
  rw [end_term_cast c N r hN1] at he
  have he1 : (i : Int) < (c : Int) :=
    lt_of_lt_of_le he (by exact_mod_cast min_le_right _ _)
  exact ⟨le_trans (Int.ofNat_nonneg _) hs, he1⟩

theorem end_term_le (c N r : Int) : end_term c N r ≤ c := by
  unfold end_term
  exact min_le_right _ _

theorem term_indices_of_le (coeffs : List α) (N r : Int)
    (h : (coeffs.length : Int) ≤ start_term coeffs.length N r) :
    term_indices coeffs N r = [] := by
  unfold term_indices
  exact loop_indices_of_le _ _ (le_trans (end_term_le _ _ _) h)

theorem partial_sum_of_le (coeffs : List α) (x : α) (N r : Int)
    (h : (coeffs.length : Int) ≤ start_term coeffs.length N r) :
    partial_sum coeffs x N r = some 0 := by
  unfold partial_sum
  rw [term_indices_of_le coeffs N r h]
  rfl

theorem loop_indices_single (r : Int) : loop_indices r (r + 1) = [r] := by
  unfold loop_indices
  have : (r + 1 - r).toNat = 1 := by omega
  rw [this]
  show [r + ((0 : Nat) : Int)] = [r]
  rw [Int.ofNat_zero, Int.add_zero]

theorem terms_per_process_eq_one (c N : Int) (hc : 1 ≤ c) (hN : c ≤ N) :
    terms_per_process c N = 1 := by
  lift c to ℕ using by omega
  lift N to ℕ using by omega
  rw [terms_per_process_cast c N (by omega), chunk_eq_one c N (by omega) (by omega)]
  rfl

theorem terms_per_process_pos (c N : Int) (hc : 1 ≤ c) (hN : 1 ≤ N) :
    1 ≤ terms_per_process c N := by
  lift c to ℕ using by omega
  lift N to ℕ using by omega
  rw [terms_per_process_cast c N (by omega)]
  exact_mod_cast chunk_pos c N (by omega) (by omega)

/-- Every intermediate value of the range computation of a rank lies between
`0` and `degree + size - 1`, so the computation on `Int` agrees with the one on
32-bit `int` whenever `degree + size - 1` fits. -/
theorem range_values_bounded (c N r : Int) (hc : 0 ≤ c) (hN : 1 ≤ N) (hr0 : 0 ≤ r)
    (hr : r < N) :
    (0 ≤ terms_per_process c N ∧ terms_per_process c N ≤ c + N - 1) ∧
    (0 ≤ start_term c N r ∧ start_term c N r ≤ c + N - 1) ∧
    (0 ≤ start_term c N r + terms_per_process c N ∧
      start_term c N r + terms_per_process c N ≤ c + N - 1) ∧
    (0 ≤ end_term c N r ∧ end_term c N r ≤ c) := by
  have ht0 : 0 ≤ terms_per_process c N := by
    unfold terms_per_process
    rw [Int.tdiv_eq_ediv (by omega) (by omega)]
    exact Int.ediv_nonneg (by omega) (by omega)
  have hNt : N * terms_per_process c N ≤ c + N - 1 := by
    unfold terms_per_process
    rw [Int.tdiv_eq_ediv (by omega) (by omega)]
    exact Int.mul_ediv_self_le (by omega)
  have hs0 : 0 ≤ start_term c N r := Int.mul_nonneg hr0 ht0
  have hst : start_term c N r + terms_per_process c N ≤ N * terms_per_process c N := by
    unfold start_term
    have : (r + 1) * terms_per_process c N ≤ N * terms_per_process c N :=
      Int.mul_le_mul_of_nonneg_right (by omega) ht0
    linarith
  have he : end_term c N r ≤ c := end_term_le c N r
  have he0 : 0 ≤ end_term c N r := by
    unfold end_term
    exact le_min (by omega) hc
  refine ⟨⟨ht0, ?_⟩, ⟨hs0, ?_⟩, ⟨by omega, by omega⟩, he0, he⟩
  · have : 1 * terms_per_process c N ≤ N * terms_per_process c N :=
      Int.mul_le_mul_of_nonneg_right hN ht0
    omega
  · omega

end RangeFacts

section Owned

theorem owned_upto_eq (c N k : Nat) (hc : 1 ≤ c) (hN : 1 ≤ N) :
    owned_upto (c : Int) (N : Int) k
      = (Finset.range (min ((k + 1) * chunk c N) c)).image (fun (i : Nat) => (i : Int)) := by
  have ht := chunk_pos c N hc hN
  ext i
  simp only [owned_upto, Finset.mem_biUnion, Finset.mem_range, List.mem_toFinset,
    mem_loop_indices, Finset.mem_image, start_term_cast c N _ hN, end_term_cast c N _ hN]
  constructor
  · rintro ⟨r, hr, hs, he⟩
    have h0 : 0 ≤ i := le_trans (Int.ofNat_nonneg _) hs
    lift i to ℕ using h0
    have hs1 : r * chunk c N ≤ i := by exact_mod_cast hs
    have he1 : i < min (r * chunk c N + chunk c N) c := by exact_mod_cast he
    have hmono : (r + 1) * chunk c N ≤ (k + 1) * chunk c N :=
      Nat.mul_le_mul_right _ (by omega)
    rw [Nat.succ_mul] at hmono
    refine ⟨i, ?_, rfl⟩
    rw [lt_min_iff] at he1 ⊢
    omega
  · rintro ⟨n, hn, rfl⟩
    rw [lt_min_iff] at hn
    have hlo : n / chunk c N * chunk c N ≤ n := Nat.div_mul_le_self n (chunk c N)
    have hhi : n < n / chunk c N * chunk c N + chunk c N := by
      have := Nat.lt_succ_self (n / chunk c N)
      have h3 := (Nat.div_lt_iff_lt_mul (show 0 < chunk c N by omega)).1 this
      rw [Nat.succ_mul] at h3
      exact h3
    have hr : n / chunk c N < k + 1 :=
      Nat.div_lt_of_lt_mul (by rw [Nat.mul_comm]; exact hn.1)
    refine ⟨n / chunk c N, hr, by exact_mod_cast hlo, ?_⟩
    have : n < min (n / chunk c N * chunk c N + chunk c N) c := lt_min hhi hn.2
    exact_mod_cast this

end Owned

section ExactTerms

variable {α : Type} [Semiring α]

theorem term_value_eq (coeffs : List α) (x : α) (i : Nat) :
    term_value coeffs x i = coeffs.getD i 0 * x ^ i := by
  rw [term_value, iter_power_eq_pow]

theorem compute_term_getD (coeffs : List α) (x : α) (i : Nat) (h : i < coeffs.length) :
    (compute_term coeffs (i : Int) x).getD 0 = term_value coeffs x i := by
  rw [compute_term_cast coeffs x i h]
  rfl

theorem Icc_eq_image (c : Nat) :
    Finset.Icc (0 : Int) ((c : Int) - 1) = (Finset.range c).image (fun (i : Nat) => (i : Int)) := by
  ext i
  simp only [Finset.mem_Icc, Finset.mem_image, Finset.mem_range]
  constructor
  · rintro ⟨h0, h1⟩
    exact ⟨i.toNat, by omega, by omega⟩
  · rintro ⟨k, hk, rfl⟩
    omega

theorem sum_image_cast (s : Finset Nat) (f : Int → α) :
    ∑ i in s.image (fun (i : Nat) => (i : Int)), f i = ∑ i in s, f (i : Int) :=
  Finset.sum_image (fun _ _ _ _ h => Int.ofNat_inj.1 h)

end ExactTerms

section Parsing

variable {α : Type}

theorem push_loop_eq (stof : String → Option α) (argv : List String) :
    ∀ (l : List String) (s : Nat) (cs : List α),
      (∀ k, k < l.length → argv[s + k]? = l[k]?) →
      ((List.range l.length).map (fun (k : Nat) => ((s + k : Nat) : Int))).foldlM
          (push_back_stof stof argv) cs
        = parse_list stof l cs := by
  intro l
  induction l with
  | nil => intro s cs _; rfl
  | cons a l ih =>
    intro s cs h
    have h0 : argv[s]? = some a := by simpa using h 0 (by simp)
    have hrest : ∀ k, k < l.length → argv[s + 1 + k]? = l[k]? := by
      intro k hk
      have := h (k + 1) (by simp; omega)
      rw [List.getElem?_cons_succ] at this
      rw [← this]
      congr 1
      omega
    have hmap : (List.range l.length).map (fun (k : Nat) => ((s + (k + 1) : Nat) : Int))
        = (List.range l.length).map (fun (k : Nat) => ((s + 1 + k : Nat) : Int)) := by
      apply List.map_congr_left
      intro k _
      congr 1
      omega
    rw [List.length_cons, List.range_succ_eq_map, List.map_cons, List.map_map, List.foldlM_cons]
    have hstep : push_back_stof stof argv cs ((s + 0 : Nat) : Int)
        = match stof a with
          | none => Except.error cs
          | some v => Except.ok (cs ++ [v]) := by
      simp [push_back_stof, h0]
    rw [hstep, parse_list]
    cases stof a with
    | none => rfl
    | some v =>
      show List.foldlM _ (cs ++ [v]) _ = parse_list stof l (cs ++ [v])
      rw [← ih (s + 1) (cs ++ [v]) hrest, ← hmap]
      rfl

theorem parse_loop_eq (stof : String → Option α) (argv : List String) (cs : List α) :
    (loop_indices 2 argv.length).foldlM (push_back_stof stof argv) cs
      = parse_list stof (argv.drop 2) cs := by
  have h := loop_indices_cast 2 argv.length
  rw [show ((2 : Nat) : Int) = 2 from rfl] at h
  rw [h]
  have hl : (argv.drop 2).length = argv.length - 2 := by simp
  rw [← hl]
  apply push_loop_eq
  intro k _
  simp

theorem parse_list_ok (stof : String → Option α) :
    ∀ (l : List String) (cs cs1 : List α), parse_list stof l cs = Except.ok cs1 →
      ∃ vs, cs1 = cs ++ vs ∧ l.map stof = vs.map some := by
  intro l
  induction l with
  | nil =>
    intro cs cs1 h
    simp only [parse_list, Except.ok.injEq] at h
    exact ⟨[], by simp [h], rfl⟩
  | cons a l ih =>
    intro cs cs1 h
    rw [parse_list] at h
    cases hs : stof a with
    | none => rw [hs] at h; cases h
    | some v =>
      rw [hs] at h
      obtain ⟨vs, h1, h2⟩ := ih _ _ h
      exact ⟨v :: vs, by simp [h1], by simp [hs, h2]⟩

theorem parse_list_error (stof : String → Option α) :
    ∀ (l : List String) (cs : List α), (∃ s ∈ l, stof s = none) →
      ∃ e, parse_list stof l cs = Except.error e := by
  intro l
  induction l with
  | nil => intro cs h; simp at h
  | cons a l ih =>
    intro cs h
    rw [parse_list]
    cases hs : stof a with
    | none => exact ⟨cs, rfl⟩
    | some v =>
      obtain ⟨s, hmem, hnone⟩ := h
      rcases List.mem_cons.1 hmem with rfl | hmem
      · rw [hs] at hnone; cases hnone
      · exact ih _ ⟨s, hmem, hnone⟩

theorem parse_arguments_cases (stof : String → Option α) (argv : List String) (x0 : α)
    (cs0 : List α) :
    ((parse_arguments stof argv x0 cs0).ok = false ∧
      ((argv.length : Int) < 3 ∨ (argv[1]?).bind stof = none ∨
        (∃ e, parse_list stof (argv.drop 2) cs0 = Except.error e) ∨
        parse_list stof (argv.drop 2) cs0 = Except.ok [])) ∨
    ((parse_arguments stof argv x0 cs0).ok = true ∧ ¬ (argv.length : Int) < 3 ∧
      (argv[1]?).bind stof = some (parse_arguments stof argv x0 cs0).x ∧
      parse_list stof (argv.drop 2) cs0
        = Except.ok (parse_arguments stof argv x0 cs0).coefficients ∧
      (parse_arguments stof argv x0 cs0).coefficients ≠ []) := by
  unfold parse_arguments
  rw [parse_loop_eq]
  by_cases h3 : (argv.length : Int) < 3
  · left
    rw [if_pos h3]
    exact ⟨rfl, Or.inl h3⟩
  · rw [if_neg h3]
    cases hx : (argv[1]?).bind stof with
    | none => left; exact ⟨rfl, Or.inr (Or.inl rfl)⟩
    | some x1 =>
      cases hl : parse_list stof (argv.drop 2) cs0 with
      | error e => left; exact ⟨rfl, Or.inr (Or.inr (Or.inl ⟨e, rfl⟩))⟩
      | ok cs =>
        cases cs with
        | nil => left; exact ⟨rfl, Or.inr (Or.inr (Or.inr rfl))⟩
        | cons c cs => right; exact ⟨rfl, h3, rfl, rfl, by simp⟩

/-- A run of `parse_arguments` and of rank 0 on concrete argument vectors,
with a parser that accepts the words `one`, `two` and `three`. -/
theorem parse_arguments_run :
    (parse_arguments
        (fun s => if s = "one" then some (1 : Int) else if s = "two" then some 2
          else if s = "three" then some 3 else none)
        ["prog", "two", "one", "three", "one"] 0 []).coefficients = [1, 3, 1] ∧
    (parse_arguments
        (fun s => if s = "one" then some (1 : Int) else if s = "two" then some 2
          else if s = "three" then some 3 else none)
        ["prog", "two", "one", "three", "one"] 0 []).x = 2 ∧
    (parse_arguments
        (fun s => if s = "one" then some (1 : Int) else if s = "two" then some 2
          else if s = "three" then some 3 else none)
        ["prog", "two", "one", "three", "one"] 0 []).ok = true ∧
    (parse_arguments
        (fun s => if s = "one" then some (1 : Int) else if s = "two" then some 2
          else if s = "three" then some 3 else none)
        ["prog", "two", "one", "four", "one"] 0 []).ok = false ∧
    (parse_arguments
        (fun s => if s = "one" then some (1 : Int) else if s = "two" then some 2
          else if s = "three" then some 3 else none)
        ["prog", "two", "one", "four", "one"] 0 []).coefficients = [1] ∧
    (parse_arguments
        (fun s => if s = "one" then some (1 : Int) else if s = "two" then some 2
          else if s = "three" then some 3 else none)
        ["prog", "two"] 0 []).ok = false := by
  refine ⟨?_, ?_, ?_, ?_, ?_, ?_⟩ <;> decide

end Parsing

/-! ## Claims -/

section Claims

/-- C2: for `c = degree + 1 ≥ 1` terms and `N ≥ 1` workers, with
`t = (c + N - 1) / N`, `start_r = r * t` and `end_r = min (start_r + t) c`, every
index `i` in `[0, c)` lies in the range `[start_r, end_r)` of exactly one rank
`r` in `[0, N)`, and no rank's range holds an index outside `[0, c)`. -/
theorem term_ranges_partition (c N : Int) (hc : 1 ≤ c) (hN : 1 ≤ N) :
    (terms_per_process c N = (c + N - 1) / N ∧
      ∀ r, start_term c N r = r * terms_per_process c N ∧
        end_term c N r = min (start_term c N r + terms_per_process c N) c) ∧
    (∀ i, 0 ≤ i → i < c →
      ∃! r, (0 ≤ r ∧ r < N) ∧ start_term c N r ≤ i ∧ i < end_term c N r) ∧
    (∀ r i, 0 ≤ r → r < N → start_term c N r ≤ i → i < end_term c N r →
      0 ≤ i ∧ i < c) := by
  lift c to ℕ using by omega
  lift N to ℕ using by omega
  have hN1 : 1 ≤ N := by exact_mod_cast hN
  have hc1 : 1 ≤ c := by exact_mod_cast hc
  have ht := chunk_pos c N hc1 hN1
  have hcov := le_mul_chunk c N hN1
  refine ⟨⟨?_, fun r => ⟨rfl, rfl⟩⟩, ?_, ?_⟩
  · unfold terms_per_process
    exact Int.tdiv_eq_ediv (by omega) (by omega)
  · intro i hi0 hic
    lift i to ℕ using hi0
    have hic1 : i < c := by exact_mod_cast hic
    have hlo : i / chunk c N * chunk c N ≤ i := Nat.div_mul_le_self i (chunk c N)
    have hhi : i < i / chunk c N * chunk c N + chunk c N := by
      have := Nat.lt_succ_self (i / chunk c N)
      have h3 := (Nat.div_lt_iff_lt_mul (show 0 < chunk c N by omega)).1 this
      rw [Nat.succ_mul] at h3
      exact h3
    have hr : i / chunk c N < N :=
      Nat.div_lt_of_lt_mul (by rw [Nat.mul_comm]; omega)
    refine ⟨((i / chunk c N : ℕ) : Int), ⟨⟨Int.ofNat_nonneg _, by exact_mod_cast hr⟩, ?_, ?_⟩, ?_⟩
    · rw [start_term_cast c N _ hN1]; exact_mod_cast hlo
    · rw [end_term_cast c N _ hN1]
      have : i < min (i / chunk c N * chunk c N + chunk c N) c := lt_min hhi hic1
      exact_mod_cast this
    · rintro r ⟨⟨hr0, _⟩, hs, he⟩
      lift r to ℕ using hr0
      rw [start_term_cast c N r hN1] at hs
      rw [end_term_cast c N r hN1] at he
      have hs1 : r * chunk c N ≤ i := by exact_mod_cast hs
      have he1 : i < min (r * chunk c N + chunk c N) c := by exact_mod_cast he
      have he2 : i < (r + 1) * chunk c N := by
        rw [Nat.succ_mul]; exact lt_of_lt_of_le he1 (min_le_left _ _)
      have := Nat.div_eq_of_lt_le hs1 he2
      exact_mod_cast this.symm
  · intro r i hr0 _ hs he
    lift r to ℕ using hr0
    rw [start_term_cast c N r hN1] at hs
    rw [end_term_cast c N r hN1] at he
    have he1 : (i : Int) < (c : Int) :=
      lt_of_lt_of_le he (by exact_mod_cast min_le_right _ _)
    exact ⟨le_trans (Int.ofNat_nonneg _) hs, he1⟩

/-- Instance of C2 for 5 terms on 4 workers. -/
theorem term_ranges_partition_witness :
    (terms_per_process 5 4 = (5 + 4 - 1) / 4 ∧
      ∀ r, start_term 5 4 r = r * terms_per_process 5 4 ∧
        end_term 5 4 r = min (start_term 5 4 r + terms_per_process 5 4) 5) ∧
    (∀ i, 0 ≤ i → i < 5 →
      ∃! r, (0 ≤ r ∧ r < 4) ∧ start_term 5 4 r ≤ i ∧ i < end_term 5 4 r) ∧
    (∀ r i, 0 ≤ r → r < 4 → start_term 5 4 r ≤ i → i < end_term 5 4 r →
      0 ≤ i ∧ i < 5) :=
  term_ranges_partition 5 4 (by decide) (by decide)

/-- C1: for a non-empty coefficient list, any `x` and `N ≥ 1` workers, the sum
the last rank holds after its accumulation step equals
`Polynomial::evaluate(x)` on the same coefficients, and the reported
difference is `0`, over exact arithmetic. -/
theorem final_result_eq_evaluate {α : Type} [LinearOrderedRing α] (coeffs : List α) (x : α)
    (N : Int) (_hne : coeffs ≠ []) (hN : 1 ≤ N) :
    ∃ v, final_result coeffs x N = some v ∧ evaluate coeffs x = some v ∧
      direct_result coeffs x N = some v ∧ difference coeffs x N = some 0 := by
  lift N to ℕ using by omega
  have hN1 : 1 ≤ N := by exact_mod_cast hN
  have h1 := final_result_eq_sum coeffs x N hN1
  have h2 := evaluate_eq_sum coeffs x
  have h3 : direct_result coeffs x (N : Int)
      = some (∑ i in Finset.range coeffs.length, term_value coeffs x i) := by
    unfold direct_result
    rw [ite_self, h2]
  refine ⟨_, h1, h2, h3, ?_⟩
  simp [difference, h1, h3]

/-- The end-to-end scenarios of C1: `x = -1`, `[1,1,1,1]`, 3 workers gives `0`;
`x = 2`, `[1,2,3,4]`, 1 or 4 workers gives `49`; `x = 0`, `[5,1,1]`, 2 workers
gives `5`. -/
theorem final_result_eq_evaluate_witness :
    (([(1 : Int), 1, 1, 1] ≠ [] ∧ (1 : Int) ≤ 3) ∧
      ∃ v, final_result [(1 : Int), 1, 1, 1] (-1) 3 = some v ∧
        evaluate [(1 : Int), 1, 1, 1] (-1) = some v ∧
        direct_result [(1 : Int), 1, 1, 1] (-1) 3 = some v ∧
        difference [(1 : Int), 1, 1, 1] (-1) 3 = some 0) ∧
    final_result [(1 : Int), 1, 1, 1] (-1) 3 = some 0 ∧
    final_result [(1 : Int), 2, 3, 4] 2 1 = some 49 ∧
    final_result [(1 : Int), 2, 3, 4] 2 4 = some 49 ∧
    evaluate [(1 : Int), 2, 3, 4] 2 = some 49 ∧
    final_result [(5 : Int), 1, 1] 0 2 = some 5 :=
  ⟨⟨⟨by decide, by decide⟩,
    final_result_eq_evaluate [(1 : Int), 1, 1, 1] (-1) 3 (by decide) (by decide)⟩,
    by decide, by decide, by decide, by decide, by decide⟩

/-- C9: with a single worker the pipelined sum and `Polynomial::evaluate(x)`
are the same expression `((0 + a0 * 1) + a1 * (1 * x)) + a2 * ((1 * x) * x) ...`
(`running_sum`), for any interpretation of `0`, `1`, `+` and `*`. -/
theorem single_worker_same_operations {α : Type} [Zero α] [One α] [Add α] [Mul α]
    (coeffs : List α) (x : α) (_hne : coeffs ≠ []) :
    final_result coeffs x 1 = some (running_sum coeffs x 0 0 coeffs.length) ∧
    evaluate coeffs x = some (running_sum coeffs x 0 0 coeffs.length) ∧
    final_result coeffs x 1 = evaluate coeffs x ∧
    (∀ n, running_sum coeffs x 0 0 (n + 1)
        = running_sum coeffs x 0 0 n + coeffs.getD n 0 * iter_power x n) ∧
    running_sum coeffs x 0 0 0 = 0 ∧
    (∀ n, iter_power x (n + 1) = iter_power x n * x) ∧ iter_power x 0 = 1 := by
  have h2 := evaluate_eq_running_sum coeffs x
  have h1 : final_result coeffs x 1 = some (running_sum coeffs x 0 0 coeffs.length) := by
    have hp := partial_sum_cast coeffs x 1 0 le_rfl
    have hc : chunk coeffs.length 1 = coeffs.length := by simp [chunk]
    have hl : range_len coeffs.length 1 0 = coeffs.length := by simp [range_len, hc]
    rw [hl, Nat.zero_mul] at hp
    simp only [final_result, accumulated_sum, accumulate]
    exact hp
  refine ⟨h1, h2, h1.trans h2.symm, fun n => ?_, rfl, fun n => rfl, rfl⟩
  simp [running_sum, term_value]

/-- Instance of C9 under an interpretation where `+` and `*` are neither
associative nor commutative, and on the integers. -/
theorem single_worker_same_operations_witness :
    ([(⟨1⟩ : Skew), ⟨2⟩, ⟨3⟩, ⟨4⟩] ≠ [] ∧
      final_result [(⟨1⟩ : Skew), ⟨2⟩, ⟨3⟩, ⟨4⟩] ⟨2⟩ 1
        = evaluate [(⟨1⟩ : Skew), ⟨2⟩, ⟨3⟩, ⟨4⟩] ⟨2⟩) ∧
    evaluate [(⟨1⟩ : Skew), ⟨2⟩, ⟨3⟩, ⟨4⟩] ⟨2⟩ = some ⟨-212⟩ ∧
    final_result [(⟨1⟩ : Skew), ⟨2⟩, ⟨3⟩, ⟨4⟩] ⟨2⟩ 1 = some ⟨-212⟩ ∧
    final_result [(1 : Int), 2, 3, 4] 2 1 = evaluate [(1 : Int), 2, 3, 4] 2 :=
  ⟨⟨by decide,
    (single_worker_same_operations [(⟨1⟩ : Skew), ⟨2⟩, ⟨3⟩, ⟨4⟩] ⟨2⟩ (by decide)).2.2.1⟩,
    by decide, by decide, by decide⟩

/-- C10: for a non-empty coefficient list of length `c`, `N ≥ 1` workers and a
rank `r` in `[0, N)`, every index the rank's loop passes to `compute_term`
lies in `[0, c)`, so the guard of `compute_term` is false there; a rank with
`start_term ≥ c` has `end_term = c`, an empty loop and partial sum `0`; and
`end_term` can be strictly less than `start_term`. -/
theorem loop_indices_in_bounds {α : Type} [Zero α] [One α] [Add α] [Mul α]
    (coeffs : List α) (x : α) (N r : Int) (hne : coeffs ≠ []) (hN : 1 ≤ N)
    (hr0 : 0 ≤ r) (_hr : r < N) :
    (∀ i ∈ term_indices coeffs N r,
      (0 ≤ i ∧ i < coeffs.length) ∧ ¬ out_of_range coeffs i) ∧
    ((coeffs.length : Int) ≤ start_term coeffs.length N r →
      end_term coeffs.length N r = coeffs.length ∧ term_indices coeffs N r = [] ∧
        partial_sum coeffs x N r = some 0) ∧
    end_term 5 4 3 < start_term 5 4 3 := by
  have hc : 1 ≤ (coeffs.length : Int) := by
    have := List.length_pos.2 hne
    omega
  refine ⟨?_, ?_, by decide⟩
  · intro i hi
    unfold term_indices at hi
    rw [mem_loop_indices] at hi
    have hb := range_bounds _ N r i (by omega) hN hr0 hi.1 hi.2
    refine ⟨hb, ?_⟩
    unfold out_of_range
    omega
  · intro h
    refine ⟨?_, term_indices_of_le coeffs N r h, partial_sum_of_le coeffs x N r h⟩
    unfold end_term
    have ht := terms_per_process_pos coeffs.length N hc hN
    exact min_eq_right (by omega)

/-- Instance of C10: five coefficients on four workers, last rank. -/
theorem loop_indices_in_bounds_witness :
    ([(1 : Int), 1, 1, 1, 1] ≠ [] ∧ (1 : Int) ≤ 4 ∧ (0 : Int) ≤ 3 ∧ (3 : Int) < 4) ∧
    term_indices [(1 : Int), 1, 1, 1, 1] 4 3 = [] ∧
    term_indices [(1 : Int), 1, 1, 1, 1] 4 2 = [4] ∧
    partial_sum [(1 : Int), 1, 1, 1, 1] 2 4 3 = some 0 :=
  ⟨⟨by decide, by decide, by decide, by decide⟩,
    ((loop_indices_in_bounds [(1 : Int), 1, 1, 1, 1] 2 4 3 (by decide) (by decide) (by decide)
      (by decide)).2.1 (by decide)).2.1,
    by decide, by decide⟩

/-- C8 as stated fails: with three coefficients (degree 2) on three workers,
rank 2 has `start_term = 2 ≥ degree`, yet it owns term 2 and contributes it. -/
theorem start_ge_degree_counterexample :
    ¬ (∀ (coeffs : List Int) (x : Int) (N r : Int), coeffs ≠ [] → 1 ≤ N → 0 ≤ r → r < N →
        degree coeffs ≤ start_term coeffs.length N r →
        term_indices coeffs N r = [] ∧ partial_sum coeffs x N r = some 0) := by
  intro h
  have h1 := h [1, 1, 1] 1 3 2 (by decide) (by decide) (by decide) (by decide) (by decide)
  exact absurd h1.1 (by decide)

/-- C8 amended: for a non-empty coefficient list, `N ≥ 1` workers and a rank
`r` in `[0, N)`, if `start_term = r * terms_per_process` is at least the number
of coefficients `degree + 1` (the value the variable `degree` of `main` holds),
the rank's term range is empty, its partial sum is `0`, and over exact
arithmetic its accumulation step returns the value it received. -/
theorem start_ge_count_empty {α : Type} [Semiring α]
    (coeffs : List α) (x : α) (N r : Int) (_hne : coeffs ≠ []) (_hN : 1 ≤ N)
    (_hr0 : 0 ≤ r) (hr : r < N)
    (h : degree coeffs + 1 ≤ start_term coeffs.length N r) :
    term_indices coeffs N r = [] ∧ partial_sum coeffs x N r = some 0 ∧
      ∀ received, accumulate coeffs x N r received = some received := by
  have h1 : (coeffs.length : Int) ≤ start_term coeffs.length N r := by
    unfold degree at h
    omega
  refine ⟨term_indices_of_le coeffs N r h1, partial_sum_of_le coeffs x N r h1, ?_⟩
  intro received
  have hr1 : ¬ r = 0 := by
    rintro rfl
    have : start_term (coeffs.length : Int) N 0 = 0 := by simp [start_term]
    have := List.length_pos.2 _hne
    omega
  have hr2 : 0 < r ∧ r < N := by omega
  simp [accumulate, hr1, hr2, partial_sum_of_le coeffs x N r h1]

/-- Instance of amended C8: five coefficients on four workers, rank 3 starts
at index 6. -/
theorem start_ge_count_empty_witness :
    ([(1 : Int), 1, 1, 1, 1] ≠ [] ∧ (1 : Int) ≤ 4 ∧ (0 : Int) ≤ 3 ∧ (3 : Int) < 4 ∧
      degree [(1 : Int), 1, 1, 1, 1] + 1 ≤ start_term 5 4 3) ∧
    term_indices [(1 : Int), 1, 1, 1, 1] 4 3 = [] ∧
    partial_sum [(1 : Int), 1, 1, 1, 1] 2 4 3 = some 0 ∧
    ∀ received, accumulate [(1 : Int), 1, 1, 1, 1] 2 4 3 received = some received :=
  ⟨⟨by decide, by decide, by decide, by decide, by decide⟩,
    start_ge_count_empty [(1 : Int), 1, 1, 1, 1] 2 4 3 (by decide) (by decide) (by decide)
      (by decide) (by decide)⟩

/-- C4: `Polynomial::compute_term(term_index, x)` returns
`coefficients[term_index] * x ^ term_index` when `0 ≤ term_index ≤ degree`
(with `x ^ 0 = 1`, also at `x = 0`), returns `0` when `term_index < 0` or
`term_index > degree` (for the empty list: at every index), and always returns
a value. -/
theorem compute_term_spec {α : Type} [Semiring α] (coefficients : List α)
    (term_index : Int) (x : α) :
    (0 ≤ term_index → term_index ≤ degree coefficients →
      ∃ a, coefficients[term_index.toNat]? = some a ∧
        compute_term coefficients term_index x = some (a * x ^ term_index.toNat)) ∧
    (term_index < 0 ∨ degree coefficients < term_index →
      compute_term coefficients term_index x = some 0) ∧
    (coefficients = [] → compute_term coefficients term_index x = some 0) ∧
    (∃ v, compute_term coefficients term_index x = some v) ∧
    (∀ a, coefficients[0]? = some a → compute_term coefficients 0 0 = some a) := by
  have hin : 0 ≤ term_index → term_index ≤ degree coefficients →
      ∃ a, coefficients[term_index.toNat]? = some a ∧
        compute_term coefficients term_index x = some (a * x ^ term_index.toNat) := by
    intro h0 h1
    lift term_index to ℕ using h0
    have hlt : term_index < coefficients.length := by
      unfold degree at h1
      omega
    refine ⟨coefficients[term_index], by simp [List.getElem?_eq_getElem hlt], ?_⟩
    rw [compute_term_cast coefficients x term_index hlt, term_value_eq]
    simp [List.getD_eq_getElem?_getD, List.getElem?_eq_getElem hlt]
  have hout : term_index < 0 ∨ degree coefficients < term_index →
      compute_term coefficients term_index x = some 0 := by
    intro h
    have hg : out_of_range coefficients term_index := by
      unfold out_of_range
      unfold degree at h
      omega
    simp [compute_term, hg]
  refine ⟨hin, hout, ?_, ?_, ?_⟩
  · rintro rfl
    simp [compute_term, out_of_range]
  · by_cases h : term_index < 0 ∨ degree coefficients < term_index
    · exact ⟨_, hout h⟩
    · obtain ⟨a, _, ha⟩ := hin (by omega) (by omega)
      exact ⟨_, ha⟩
  · intro a ha
    cases coefficients with
    | nil => simp at ha
    | cons b rest =>
      simp only [List.getElem?_cons_zero, Option.some.injEq] at ha
      subst ha
      have := compute_term_cast (b :: rest) (0 : α) 0 (by simp)
      simpa [term_value, iter_power] using this

/-- C5: `Polynomial::evaluate(x)` on `[a0..an]` is the sum of `a_i * x ^ i`
accumulated in ascending index order, which is the sum of
`compute_term(i, x)` over `i` in `[0, degree]`; on the empty list it is `0`. -/
theorem evaluate_spec {α : Type} [Semiring α] (coefficients : List α) (x : α) :
    evaluate coefficients x
      = some ((List.range coefficients.length).foldl
          (fun result i => result + coefficients.getD i 0 * x ^ i) 0) ∧
    evaluate coefficients x
      = some (∑ i : Fin coefficients.length, coefficients.get i * x ^ (i : Nat)) ∧
    evaluate coefficients x
      = some (∑ i in Finset.Icc (0 : Int) (degree coefficients),
          (compute_term coefficients i x).getD 0) ∧
    evaluate ([] : List α) x = some 0 := by
  have hsum := evaluate_eq_sum coefficients x
  refine ⟨?_, ?_, ?_, rfl⟩
  · rw [evaluate_eq_running_sum]
    congr 1
    generalize coefficients.length = n
    induction n with
    | zero => rfl
    | succ n ih =>
      rw [List.range_succ, List.foldl_append, ← ih, running_sum, term_value_eq]
      simp
  · rw [hsum, Finset.sum_range (fun i => term_value coefficients x i)]
    congr 1
    apply Finset.sum_congr rfl
    intro i _
    rw [term_value_eq]
    simp [List.getD_eq_getElem?_getD, List.getElem?_eq_getElem i.2]
  · rw [hsum]
    congr 1
    unfold degree
    rw [Icc_eq_image, sum_image_cast]
    apply Finset.sum_congr rfl
    intro i hi
    rw [compute_term_getD coefficients x i (Finset.mem_range.1 hi)]

/-- C7: with at least as many workers as terms (`N ≥ degree + 1`),
`terms_per_process` is `1`, rank `r ≤ degree` owns exactly index `r`, and a
rank `r > degree` owns nothing, has partial sum `0` and passes on the sum it
received; with `N = degree + 1` every rank owns one term; the final sum is
the full evaluation, and for degree `0` it is `coefficients[0]`. -/
theorem one_term_per_worker {α : Type} [Semiring α] (coeffs : List α) (x : α) (N : Int)
    (hne : coeffs ≠ []) (hN : degree coeffs + 1 ≤ N) :
    terms_per_process coeffs.length N = 1 ∧
    (∀ r, 0 ≤ r → r ≤ degree coeffs → term_indices coeffs N r = [r]) ∧
    (∀ r, degree coeffs < r → r < N →
      term_indices coeffs N r = [] ∧ partial_sum coeffs x N r = some 0 ∧
        ∀ received, accumulate coeffs x N r received = some received) ∧
    (N = degree coeffs + 1 → ∀ r, 0 ≤ r → r < N → term_indices coeffs N r = [r]) ∧
    final_result coeffs x N = evaluate coeffs x ∧
    (degree coeffs = 0 → final_result coeffs x N = coeffs[0]?) := by
  have hc : 1 ≤ (coeffs.length : Int) := by
    have := List.length_pos.2 hne
    omega
  have hd : degree coeffs = (coeffs.length : Int) - 1 := rfl
  have ht : terms_per_process coeffs.length N = 1 :=
    terms_per_process_eq_one _ N hc (by omega)
  have hstart : ∀ r, start_term coeffs.length N r = r := by
    intro r
    rw [start_term, ht, mul_one]
  have hown : ∀ r, 0 ≤ r → r ≤ degree coeffs → term_indices coeffs N r = [r] := by
    intro r _ hr
    unfold term_indices end_term
    rw [hstart, ht, min_eq_left (by omega), loop_indices_single]
  have hfin : final_result coeffs x N = evaluate coeffs x := by
    lift N to ℕ using by omega
    rw [final_result_eq_sum coeffs x N (by omega), evaluate_eq_sum]
  refine ⟨ht, hown, ?_, ?_, hfin, ?_⟩
  · intro r hr hrN
    have h1 : (coeffs.length : Int) ≤ start_term coeffs.length N r := by
      rw [hstart]
      omega
    refine ⟨term_indices_of_le coeffs N r h1, partial_sum_of_le coeffs x N r h1, ?_⟩
    intro received
    have hr1 : ¬ r = 0 := by omega
    have hr2 : 0 < r ∧ r < N := by omega
    simp [accumulate, hr1, hr2, partial_sum_of_le coeffs x N r h1]
  · intro hNd r hr0 hrN
    exact hown r hr0 (by omega)
  · intro h0
    rw [hfin]
    match coeffs, hne, h0 with
    | [a], _, _ =>
      have := evaluate_eq_sum [a] x
      simpa [term_value, iter_power] using this
    | _ :: _ :: _, _, h0 =>
      simp [degree] at h0
      omega

/-- The scenario of C7: `x = 2`, `[1,2,3,4]` on four workers, each owning one
term, final sum `49`; and a single coefficient on three workers. -/
theorem one_term_per_worker_witness :
    ([(1 : Int), 2, 3, 4] ≠ [] ∧ degree [(1 : Int), 2, 3, 4] + 1 ≤ 4) ∧
    (∀ r, 0 ≤ r → r < 4 → term_indices [(1 : Int), 2, 3, 4] 4 r = [r]) ∧
    final_result [(1 : Int), 2, 3, 4] 2 4 = some 49 ∧
    final_result [(7 : Int)] 2 3 = some 7 :=
  ⟨⟨by decide, by decide⟩,
    (one_term_per_worker [(1 : Int), 2, 3, 4] 2 4 (by decide) (by decide)).2.2.2.1 (by decide),
    by decide, by decide⟩

/-- C6: `parse_arguments`, called with an empty coefficient vector, returns
`false` when `argc < 3` or when one of `argv[1..argc-1]` does not parse; when
it returns `true`, `x` is the parse of `argv[1]` and the coefficients are the
parses of `argv[2..argc-1]` in order, `argc - 2 ≥ 1` of them. So rank 0
reaches the broadcast only with a non-empty coefficient list and aborts with
status 1 on `false`. -/
theorem parse_arguments_spec {α : Type} (stof : String → Option α) (argv : List String)
    (x0 : α) :
    ((argv.length : Int) < 3 → (parse_arguments stof argv x0 []).ok = false) ∧
    (∀ i : Nat, 1 ≤ i → i < argv.length → (argv[i]?).bind stof = none →
      (parse_arguments stof argv x0 []).ok = false) ∧
    ((parse_arguments stof argv x0 []).ok = true →
      (argv[1]?).bind stof = some (parse_arguments stof argv x0 []).x ∧
      ((parse_arguments stof argv x0 []).coefficients.length : Int) = argv.length - 2 ∧
      1 ≤ (parse_arguments stof argv x0 []).coefficients.length ∧
      (argv.drop 2).map stof = (parse_arguments stof argv x0 []).coefficients.map some) ∧
    (∀ x coeffs, main_rank0 stof argv x0 = Rank0Outcome.broadcast x coeffs →
      coeffs ≠ [] ∧ (parse_arguments stof argv x0 []).ok = true ∧
        x = (parse_arguments stof argv x0 []).x ∧
        coeffs = (parse_arguments stof argv x0 []).coefficients) ∧
    ((parse_arguments stof argv x0 []).ok = false →
      main_rank0 stof argv x0 = Rank0Outcome.abort 1) := by
  have hcases := parse_arguments_cases stof argv x0 []
  have htrue : (parse_arguments stof argv x0 []).ok = true →
      ¬ (argv.length : Int) < 3 ∧
      (argv[1]?).bind stof = some (parse_arguments stof argv x0 []).x ∧
      parse_list stof (argv.drop 2) []
        = Except.ok (parse_arguments stof argv x0 []).coefficients ∧
      (parse_arguments stof argv x0 []).coefficients ≠ [] := by
    intro h
    rcases hcases with ⟨hf, _⟩ | ⟨_, h⟩
    · rw [hf] at h; cases h
    · exact h
  refine ⟨?_, ?_, ?_, ?_, ?_⟩
  · intro h3
    cases hok : (parse_arguments stof argv x0 []).ok with
    | false => rfl
    | true => exact absurd h3 (htrue hok).1
  · intro i hi1 hilt hnone
    cases hok : (parse_arguments stof argv x0 []).ok with
    | false => rfl
    | true =>
      obtain ⟨_, hx, hl, _⟩ := htrue hok
      exfalso
      by_cases hi : i = 1
      · subst hi
        rw [hx] at hnone
        cases hnone
      · have hmem : argv[i] ∈ argv.drop 2 := by
          have h2 : i - 2 < (argv.drop 2).length := by simp; omega
          have := List.getElem_mem h2
          have e : (argv.drop 2)[i - 2] = argv[i] := by
            simp only [List.getElem_drop]
            congr 1
            omega
          rwa [e] at this
        have hs : stof argv[i] = none := by
          simpa [List.getElem?_eq_getElem hilt] using hnone
        obtain ⟨e, he⟩ := parse_list_error stof (argv.drop 2) [] ⟨_, hmem, hs⟩
        rw [he] at hl
        cases hl
  · intro hok
    obtain ⟨h3, hx, hl, hne⟩ := htrue hok
    obtain ⟨vs, hvs, hmap⟩ := parse_list_ok stof _ _ _ hl
    rw [List.nil_append] at hvs
    have hlen : (parse_arguments stof argv x0 []).coefficients.length = argv.length - 2 := by
      have := congrArg List.length hmap
      simp only [List.length_map, List.length_drop] at this
      rw [hvs]
      exact this.symm
    refine ⟨hx, ?_, ?_, ?_⟩
    · rw [hlen]
      omega
    · rw [hlen]
      omega
    · rw [hvs]
      exact hmap
  · intro x coeffs hm
    unfold main_rank0 at hm
    cases hok : (parse_arguments stof argv x0 []).ok with
    | false => simp [hok] at hm
    | true =>
      simp only [hok, Bool.not_true, Bool.false_eq_true, if_false,
        Rank0Outcome.broadcast.injEq] at hm
      obtain ⟨_, _, _, hne⟩ := htrue hok
      exact ⟨hm.2 ▸ hne, rfl, hm.1.symm, hm.2.symm⟩
  · intro hok
    unfold main_rank0
    simp [hok]

/-- C3: for a non-empty coefficient list, `N ≥ 1` workers and a rank `k` in
`[0, N)`, the value of `accumulated_sum` at rank `k` after its accumulation
step is the sum of `compute_term(i, x)` over the indices owned by the ranks
`0..k`; rank 0 starts from its own partial sum and each later rank adds its
partial sum to the value received from its predecessor. Over exact
arithmetic. -/
theorem chain_invariant {α : Type} [Semiring α] (coeffs : List α) (x : α) (N : Int) (k : Nat)
    (hne : coeffs ≠ []) (hN : 1 ≤ N) (hk : (k : Int) < N) :
    accumulated_sum coeffs x N k
      = some (∑ i in owned_upto coeffs.length N k, (compute_term coeffs i x).getD 0) ∧
    accumulated_sum coeffs x N 0 = partial_sum coeffs x N 0 ∧
    (∀ j : Nat, j < k → ∃ received p,
      accumulated_sum coeffs x N j = some received ∧
      partial_sum coeffs x N ((j : Int) + 1) = some p ∧
      accumulated_sum coeffs x N (j + 1) = some (received + p)) := by
  lift N to ℕ using by omega
  have hN1 : 1 ≤ N := by exact_mod_cast hN
  have hk1 : k < N := by exact_mod_cast hk
  have hc : 1 ≤ coeffs.length := List.length_pos.2 hne
  refine ⟨?_, ?_, ?_⟩
  · rw [accumulated_sum_eq coeffs x N hN1 k hk1, owned_upto_eq _ N k hc hN1, sum_image_cast]
    congr 1
    apply Finset.sum_congr rfl
    intro i hi
    rw [compute_term_getD coeffs x i (by
      have := Finset.mem_range.1 hi
      rw [lt_min_iff] at this
      exact this.2)]
  · simp [accumulated_sum, accumulate]
  · intro j hj
    have hv := accumulated_sum_eq coeffs x N hN1 j (by omega)
    have hp := partial_sum_cast coeffs x N (j + 1) hN1
    push_cast at hp
    exact ⟨_, _, hv, hp, accumulated_sum_succ coeffs x N j hN1 (by omega) _ hv⟩

/-- Instance of C3: `x = 2`, `[1,2,3,4,5]` on three workers; rank 1 holds the
sum of the terms `0..3`, which is `1 + 4 + 12 + 32`. -/
theorem chain_invariant_witness :
    ([(1 : Int), 2, 3, 4, 5] ≠ [] ∧ (1 : Int) ≤ 3 ∧ ((1 : Nat) : Int) < 3) ∧
    accumulated_sum [(1 : Int), 2, 3, 4, 5] 2 3 1
      = some (∑ i in owned_upto 5 3 1, (compute_term [(1 : Int), 2, 3, 4, 5] i 2).getD 0) ∧
    accumulated_sum [(1 : Int), 2, 3, 4, 5] 2 3 0 = some 5 ∧
    accumulated_sum [(1 : Int), 2, 3, 4, 5] 2 3 1 = some 49 ∧
    accumulated_sum [(1 : Int), 2, 3, 4, 5] 2 3 2 = some 129 :=
  ⟨⟨by decide, by decide, by decide⟩,
    (chain_invariant [(1 : Int), 2, 3, 4, 5] 2 3 1 (by decide) (by decide) (by decide)).1,
    by decide, by decide, by decide⟩

end Claims

end PolynomialPipeline
